import Mathlib

/-!
Verification of the character-aware embedding subsystem of
`models/transformer_chrawr.py` (model `TransformerChrawr`).

Tensors are shallow-embedded as nested lists of rationals:
a 3-D tensor `[batch, time, channel]` is `List (List (List ℚ))`.
Learned weights (created by `tf.layers.conv1d` in the source) are explicit
parameters; a 1-D convolution filter of kernel size `k`, `cin` input channels
and `cout` output channels is stored as `cout × k × cin` nested lists (a pure
re-indexing of TensorFlow's `k × cin × cout` layout).  Transcendental
activations (`tf.nn.sigmoid`, `hparams.chr_nonlinearity`) are abstracted as
function parameters `ℚ → ℚ`, exactly as the source threads
`hparams.chr_nonlinearity` as a function value.  Fallible graph construction
(the `assert` in `conv_emb`, the unbound `output` variable in `highway` when
the loop body never runs) is modelled with `Except String` / `Option`.
-/

abbrev Mat := List (List ℚ)

abbrev T3 := List (List (List ℚ))

/-- Dot product of two channel vectors (missing entries act as zero padding). -/
def dot (xs ys : List ℚ) : ℚ := (List.zipWith (· * ·) xs ys).sum

/-- Row of a time×channel matrix at a (possibly out-of-range) integer time
index; out-of-range rows are the zero padding used by `'same'` convolution. -/
def rowAt (m : Mat) (t : Int) : List ℚ :=
  if t < 0 then [] else m.getD t.toNat []

/-- Shallow embedding of `tf.layers.conv1d(x, cout, k, 1, 'same',
activation=act)` acting on one batch element: stride-1 same-padded 1-D
convolution with filters `F : cout × k × cin`, bias `bias : cout`, followed by
the pointwise activation.  `'same'` with stride 1 pads `(k-1)/2` steps at the
beginning. -/
def conv1dSame (act : ℚ → ℚ) (k : ℕ) (F : List (List (List ℚ)))
    (bias : List ℚ) (m : Mat) : Mat :=
  (List.range m.length).map fun (t : ℕ) =>
    List.zipWith
      (fun Fo bo =>
        act (bo + ((List.range k).map fun i =>
          dot (rowAt m (Int.ofNat t + Int.ofNat i - Int.ofNat ((k - 1) / 2)))
            (Fo.getD i [])).sum))
      F bias

/-- Batched convolution: `tf.layers.conv1d` applied over the whole batch. -/
def t3conv (act : ℚ → ℚ) (k : ℕ) (F : List (List (List ℚ)))
    (bias : List ℚ) (x : T3) : T3 :=
  x.map (conv1dSame act k F bias)

/-- One mask row: `to_float(not_equal(reduce_sum(abs(row)), 0.0))`, expanded
to a singleton channel dimension. -/
def maskRow (row : List ℚ) : List ℚ :=
  [if (row.map fun v => |v|).sum ≠ 0 then (1 : ℚ) else 0]

/-- Source `embedding_mask(emb)`:
`expand_dims(to_float(not_equal(reduce_sum(abs(emb), -1), 0.0)), -1)`. -/
def embedding_mask (emb : T3) : T3 :=
  emb.map fun m => m.map maskRow

/-- Elementwise product of a `time × channel` matrix with a `time × 1` mask,
the mask value broadcasting across channels (TF broadcasting of
`emb * emb_mask`). -/
def mulMask (m mask : Mat) : Mat :=
  List.zipWith (fun row mrow => row.map (· * mrow.headD 0)) m mask

/-- Batched broadcast product `x * mask` for a `batch × time × 1` mask. -/
def t3mul (x mask : T3) : T3 := List.zipWith mulMask x mask

/-- Index-aware map (used for dropout's per-coordinate random draw and the
positional timing signal). -/
def idxMap (f : ℕ → α → β) : List α → List β
  | [] => []
  | a :: as => f 0 a :: idxMap (fun i b => f (i + 1) b) as

/-- Shallow embedding of `tf.nn.dropout(x, keep)`: each coordinate is
multiplied by `floor(keep + uniform)` (a 0/1 Bernoulli draw, `u b t c` being
the uniform sample in `[0,1)` at that coordinate) and divided by `keep`. -/
def dropoutT3 (keep : ℚ) (u : ℕ → ℕ → ℕ → ℚ) (x : T3) : T3 :=
  idxMap (fun b m =>
    idxMap (fun t row =>
      idxMap (fun c v => v * (if 1 ≤ keep + u b t c then 1 else 0) / keep) row) m) x

/-- Modelled from the spec: `common_attention.add_timing_signal_1d` (not part
of this repository) adds a fixed non-learned positional signal, depending on
the time and channel index only, identically across the batch.  The signal
values are abstracted as the function `timing`. -/
def addTiming (timing : ℕ → ℕ → ℚ) (x : T3) : T3 :=
  x.map fun m => idxMap (fun t row => idxMap (fun c v => v + timing t c) row) m

/-- The rows of `m` covered by pooling window `j` (window size `p`, stride
`p`, left padding `pl`); padded positions are dropped, matching `'same'`
max-pooling where padding never contributes to a maximum. -/
def poolWindow (p pl : ℕ) (m : Mat) (j : ℕ) : Mat :=
  (List.range p).filterMap fun i =>
    if pl ≤ j * p + i ∧ j * p + i - pl < m.length then
      some (m.getD (j * p + i - pl) [])
    else none

/-- Channel-wise maximum of a nonempty window of rows. -/
def elemMax (rows : Mat) : List ℚ :=
  match rows with
  | [] => []
  | r :: rs => rs.foldl (fun a c => List.zipWith max a c) r

/-- Shallow embedding of `tf.layers.max_pooling1d(m, p, p, 'same')` on one
batch element: output length `⌈L/p⌉`, total padding `out*p - L`, half of it
(rounded down) at the beginning. -/
def maxpool1dSame (p : ℕ) (m : Mat) : Mat :=
  let out := (m.length + p - 1) / p
  let pl := (out * p - m.length) / 2
  (List.range out).map fun j => elemMax (poolWindow p pl m j)

/-- Weights of one convolutional branch of `conv_emb` (one `kernel_%d`
layer). -/
structure BranchW where
  F : List (List (List ℚ))
  bias : List ℚ

/-- One branch of `conv_emb` on one batch element: same-padded convolution
with the branch's kernel size and the configured nonlinearity, masking of the
padding positions, then same-padded max-pooling with window and stride `p`. -/
def convBranchMat (act : ℚ → ℚ) (k : ℕ) (w : BranchW) (p : ℕ)
    (m mask : Mat) : Mat :=
  maxpool1dSame p (mulMask (conv1dSame act k w.F w.bias m) mask)

/-- A branch of `conv_emb` over the whole batch. -/
def convBranchT3 (act : ℚ → ℚ) (k : ℕ) (w : BranchW) (p : ℕ)
    (x mask : T3) : T3 :=
  List.zipWith (convBranchMat act k w p) x mask

/-- Channel concatenation of two `batch × time × channel` tensors
(`tf.concat(_, 2)` restricted to two arguments). -/
def concatC (a c : T3) : T3 :=
  List.zipWith (fun u v => List.zipWith (· ++ ·) u v) a c

/-- `tf.concat(layers, 2)` over a nonempty list of branch outputs. -/
def concatT3 : List T3 → T3
  | [] => []
  | x :: xs => xs.foldl concatC x

/-- Source `conv_emb(inputs, hparams, input_mask)`: asserts that
`chr_kernels` and `chr_kernel_features` have equal length, builds one
convolution+mask+pool branch per kernel, and concatenates the branch outputs
along the channel axis when there is more than one kernel, otherwise takes
`layers[0]` (an index error when the kernel list is empty). -/
def conv_emb (act : ℚ → ℚ) (kernels features : List ℕ) (ws : List BranchW)
    (p : ℕ) (x mask : T3) : Except String T3 :=
  if kernels.length = features.length then
    let layers := List.zipWith (fun k w => convBranchT3 act k w p x mask) kernels ws
    if 1 < kernels.length then .ok (concatT3 layers)
    else
      match layers with
      | [] => .error "list index out of range"
      | l :: _ => .ok l
  else .error "Kernel and Features must have the same size"

/-- Weights of one highway layer: the `highway_lin_%d` (transform gate) and
`highway_gate_%d` (candidate) 1x1 convolutions. -/
structure HighwayW where
  tF : List (List (List ℚ))
  tBias : List ℚ
  gF : List (List (List ℚ))
  gBias : List ℚ

/-- Three-way `zipWith`, truncating to the shortest list. -/
def zip3 (f : α → β → γ → δ) : List α → List β → List γ → List δ
  | a :: as, b :: bs, c :: cs => f a b c :: zip3 f as bs cs
  | _, _, _ => []

/-- The elementwise combination `t * g + (1 - t) * inputs` of one highway
layer. -/
def hwCombine (t g x : Mat) : Mat :=
  zip3 (fun tr gr xr => zip3 (fun a c y => a * c + (1 - a) * y) tr gr xr) t g x

/-- One iteration of the loop body of `highway`: `t` is a sigmoid-activated
1x1 convolution of the layer input, `g` a separately-parameterized
1x1 convolution with the configured nonlinearity, and the output is
`t * g + (1 - t) * inputs`. -/
def highwayStep (sigmoid gAct : ℚ → ℚ) (w : HighwayW) (x : Mat) : Mat :=
  hwCombine (conv1dSame sigmoid 1 w.tF w.tBias x)
    (conv1dSame gAct 1 w.gF w.gBias x) x

/-- The total part of the highway loop: fold the layer steps over the layer
weights. -/
def highwayRun (sigmoid gAct : ℚ → ℚ) (ws : List HighwayW) (x : Mat) : Mat :=
  ws.foldl (fun acc w => highwayStep sigmoid gAct w acc) x

/-- Source `highway(inputs, size, hparams)` on one batch element: the Python
loop carries the pair (current `inputs`, last assigned `output`); `output`
starts unassigned (`none`) and the function returns `output`, so a zero-layer
configuration returns no defined tensor. -/
def highway (sigmoid gAct : ℚ → ℚ) (ws : List HighwayW) (x : Mat) : Option Mat :=
  (ws.foldl
    (fun st w =>
      let out := highwayStep sigmoid gAct w st.1
      (out, some out))
    ((x, none) : Mat × Option Mat)).2

/-- Hyperparameters of the character-aware embedding consumed by
`chrawr_embedding` (`chr_kernels`, `chr_kernel_features`, `chr_maxpool_size`,
`chr_dropout_rate`, `chr_pos_enc`). -/
structure ChrawrParams where
  kernels : List ℕ
  features : List ℕ
  maxpool : ℕ
  dropoutRate : ℚ
  posEnc : Bool

/-- All learned weights of the character-aware embedding pipeline. -/
structure ChrawrWeights where
  rescaleF : List (List (List ℚ))
  rescaleBias : List ℚ
  branchWs : List BranchW
  hwLayers : List HighwayW
  restoreF : List (List (List ℚ))
  restoreBias : List ℚ

/-- The pre-convolution stages of `chrawr_embedding`: initial mask, 1x1
rescaling convolution (`rescaled_embedding`, linear activation), optional
timing signal, re-masking. -/
def chrawrPre (W : ChrawrWeights) (posEnc : Bool) (timing : ℕ → ℕ → ℚ)
    (emb : T3) : T3 :=
  let emb_mask := embedding_mask emb
  let emb1 := t3conv id 1 W.rescaleF W.rescaleBias emb
  let emb2 := if posEnc then addTiming timing emb1 else emb1
  t3mul emb2 emb_mask

/-- `chrawr_embedding` up to and including the `conv_emb` call (the
character-aware convolution stage). -/
def chrawrMid (gAct : ℚ → ℚ) (W : ChrawrWeights) (P : ChrawrParams)
    (timing : ℕ → ℕ → ℚ) (emb : T3) : Except String T3 :=
  conv_emb gAct P.kernels P.features W.branchWs P.maxpool
    (chrawrPre W P.posEnc timing emb) (embedding_mask emb)

/-- Source `chrawr_embedding(emb, hparams)`: mask, rescale, optional
positional signal, mask, multi-kernel convolution, recompute mask, dropout,
highway, mask, a second dropout whose result is bound to `encoder_input` and
never used again, the 1x1 restoring convolution (`restored_embedding`) applied
to the masked highway output, and a final masking.  `u1`, `u2` are the two
dropout layers' uniform random draws. -/
def chrawr_embedding (sigmoid gAct : ℚ → ℚ) (W : ChrawrWeights)
    (P : ChrawrParams) (timing : ℕ → ℕ → ℚ) (u1 u2 : ℕ → ℕ → ℕ → ℚ)
    (emb : T3) : Except String T3 :=
  match chrawrMid gAct W P timing emb with
  | .error e => .error e
  | .ok embc =>
    let emb_mask_in := embedding_mask embc
    let embd := dropoutT3 (1 - P.dropoutRate) u1 embc
    match W.hwLayers with
    | [] => .error "local variable referenced before assignment"
    | _ :: _ =>
      let embh := embd.map (highwayRun sigmoid gAct W.hwLayers)
      let embm := t3mul embh emb_mask_in
      let encoder_input := dropoutT3 (1 - P.dropoutRate) u2 embm
      let embr := t3conv id 1 W.restoreF W.restoreBias embm
      .ok (t3mul embr emb_mask_in)

/-- Modelled from the spec: the pipeline as the spec's step list describes it,
with step 11 (the restoring convolution) consuming the output of step 10 (the
second dropout application) instead of the masked highway output.  Identical
to `chrawr_embedding` except for the input of the restoring convolution. -/
def chrawr_embedding_specC2 (sigmoid gAct : ℚ → ℚ) (W : ChrawrWeights)
    (P : ChrawrParams) (timing : ℕ → ℕ → ℚ) (u1 u2 : ℕ → ℕ → ℕ → ℚ)
    (emb : T3) : Except String T3 :=
  match chrawrMid gAct W P timing emb with
  | .error e => .error e
  | .ok embc =>
    let emb_mask_in := embedding_mask embc
    let embd := dropoutT3 (1 - P.dropoutRate) u1 embc
    match W.hwLayers with
    | [] => .error "local variable referenced before assignment"
    | _ :: _ =>
      let embh := embd.map (highwayRun sigmoid gAct W.hwLayers)
      let embm := t3mul embh emb_mask_in
      let encoder_input := dropoutT3 (1 - P.dropoutRate) u2 embm
      let embr := t3conv id 1 W.restoreF W.restoreBias encoder_input
      .ok (t3mul embr emb_mask_in)

/-- Entry `(b, t)` of a `batch × time × 1` mask tensor. -/
def maskEntry (x : T3) (b t : ℕ) : ℚ := ((x.getD b []).getD t []).headD 0

/-- Sum of absolute values of the feature vector at `(b, t)`. -/
def rowAbsSum (x : T3) (b t : ℕ) : ℚ :=
  (((x.getD b []).getD t []).map fun v => |v|).sum

/-! Concrete fixtures used by witness and counterexample theorems. -/

/-- A 1-channel highway layer with unit weights and zero biases. -/
def hw1 : HighwayW := ⟨[[[1]]], [0], [[[1]]], [0]⟩

/-- A 1-channel, kernel-size-compatible branch with unit weight and zero
bias. -/
def bw1 : BranchW := ⟨[[[1]]], [0]⟩

/-- Minimal weight bundle: 1 input channel, 1 reduced channel, one branch,
one highway layer, 1 output channel, all unit weights and zero biases. -/
def W0 : ChrawrWeights :=
  { rescaleF := [[[1]]], rescaleBias := [0]
    branchWs := [bw1]
    hwLayers := [hw1]
    restoreF := [[[1]]], restoreBias := [0] }

/-- Minimal parameters: one kernel of width 1 and feature count 1, pooling 1,
no dropout, no positional signal. -/
def P0 : ChrawrParams := ⟨[1], [1], 1, 0, false⟩

/-- Like `P0` but with dropout rate 1/2. -/
def P1 : ChrawrParams := ⟨[1], [1], 1, 1/2, false⟩

/-- Parameters with mismatched kernel and feature list lengths. -/
def Pmis : ChrawrParams := ⟨[1, 2, 3], [1, 1], 1, 0, false⟩

/-- All-zero uniform draws (every coordinate drawn as 0). -/
def uz : ℕ → ℕ → ℕ → ℚ := fun _ _ _ => 0

/-- All-1/2 uniform draws. -/
def uh : ℕ → ℕ → ℕ → ℚ := fun _ _ _ => 1/2

/-- The zero timing signal. -/
def tz : ℕ → ℕ → ℚ := fun _ _ => 0

/-- A 1×2×1 embedding whose second position is all-zero (padding). -/
def e0 : T3 := [[[1], [0]]]

/-- A 1×1×1 embedding with no padding. -/
def e1 : T3 := [[[1]]]

/-! Helper lemmas. -/

theorem getD_map_lt {α β : Type _} (f : α → β) (l : List α) (n : ℕ)
    (h : n < l.length) (d : β) (d' : α) :
    (l.map f).getD n d = f (l.getD n d') := by
  rw [List.getD_eq_getElem?_getD, List.getD_eq_getElem?_getD,
    List.getElem?_map, List.getElem?_eq_getElem h]
  simp

theorem sumMapZero (l : List ℚ) (f : ℚ → ℚ) (hf : ∀ x, f x = 0) :
    (l.map f).sum = 0 := by
  induction l with
  | nil => rfl
  | cons a l ih => simp [hf, ih]

theorem idxMap_id {α : Type _} (f : ℕ → α → α) (l : List α)
    (hf : ∀ i a, f i a = a) : idxMap f l = l := by
  induction l generalizing f with
  | nil => rfl
  | cons a l ih => simp [idxMap, hf 0 a, ih (fun i b => f (i + 1) b) (fun i a => hf (i + 1) a)]

theorem dropout_keep_one (u : ℕ → ℕ → ℕ → ℚ) (x : T3)
    (hu : ∀ b t c, 0 ≤ u b t c) : dropoutT3 1 u x = x := by
  unfold dropoutT3
  refine idxMap_id _ _ fun b m => ?_
  refine idxMap_id _ _ fun t row => ?_
  refine idxMap_id _ _ fun c v => ?_
  rw [if_pos (le_add_of_nonneg_right (hu b t c)), mul_one, div_one]

theorem highway_pair_aux (sigmoid gAct : ℚ → ℚ) (ws : List HighwayW) (y : Mat) :
    ws.foldl
      (fun st w =>
        let out := highwayStep sigmoid gAct w st.1
        (out, some out))
      ((y, some y) : Mat × Option Mat)
      = (highwayRun sigmoid gAct ws y, some (highwayRun sigmoid gAct ws y)) := by
  induction ws generalizing y with
  | nil => simp [highwayRun]
  | cons w ws ih => simp [highwayRun, List.foldl_cons, ih]

theorem highway_cons (sigmoid gAct : ℚ → ℚ) (w : HighwayW) (ws : List HighwayW)
    (x : Mat) :
    highway sigmoid gAct (w :: ws) x
      = (ws.foldl
          (fun st w' =>
            let out := highwayStep sigmoid gAct w' st.1
            (out, some out))
          ((highwayStep sigmoid gAct w x, some (highwayStep sigmoid gAct w x)) :
            Mat × Option Mat)).2 := rfl

theorem highway_eq_run (sigmoid gAct : ℚ → ℚ) (ws : List HighwayW) (x : Mat)
    (h : ws ≠ []) :
    highway sigmoid gAct ws x = some (highwayRun sigmoid gAct ws x) := by
  cases ws with
  | nil => exact absurd rfl h
  | cons w ws =>
    rw [highway_cons, highway_pair_aux]
    simp [highwayRun]

theorem maskRow_mulMask (m : Mat) :
    (mulMask m (m.map maskRow)).map maskRow = m.map maskRow := by
  induction m with
  | nil => rfl
  | cons row m ih =>
    have step : mulMask (row :: m) ((row :: m).map maskRow)
        = (row.map (· * (maskRow row).headD 0)) :: mulMask m (m.map maskRow) := rfl
    rw [step, List.map_cons, List.map_cons]
    refine congrArg₂ _ ?_ ih
    have hh : (maskRow row).headD 0
        = if (row.map fun v => |v|).sum ≠ 0 then (1 : ℚ) else 0 := rfl
    by_cases hc : (row.map fun v => |v|).sum ≠ 0
    · rw [hh, if_pos hc]
      have hrow : row.map (· * (1 : ℚ)) = row := by simp
      rw [hrow]
    · rw [hh, if_neg hc]
      unfold maskRow
      rw [if_neg hc, if_neg]
      intro hne
      apply hne
      rw [List.map_map]
      exact sumMapZero _ _ fun x => by simp

/-! Claim theorems. -/

/-- C1: the mask produced by `embedding_mask` is 1 at `(b,t)` iff the sum of
absolute values of the feature vector at `(b,t)` is nonzero, 0 iff that sum
is zero, and every mask entry is exactly 0 or 1 (hence the mask is entirely
1s on padding-free inputs and exactly 0 at all-zero positions and 1
elsewhere). -/
theorem embedding_mask_spec (emb : T3) (b t : ℕ) (hb : b < emb.length)
    (ht : t < (emb.getD b []).length) :
    (maskEntry (embedding_mask emb) b t = 1 ↔ rowAbsSum emb b t ≠ 0) ∧
    (maskEntry (embedding_mask emb) b t = 0 ↔ rowAbsSum emb b t = 0) ∧
    (maskEntry (embedding_mask emb) b t = 0 ∨ maskEntry (embedding_mask emb) b t = 1) := by
  have hmask : maskEntry (embedding_mask emb) b t
      = if rowAbsSum emb b t ≠ 0 then 1 else 0 := by
    unfold maskEntry embedding_mask rowAbsSum
    simp only [getD_map_lt (fun m => List.map maskRow m) emb b hb [] [],
      getD_map_lt maskRow (emb.getD b []) t ht [] []]
    rfl
  by_cases h : rowAbsSum emb b t = 0 <;> simp [hmask, h]

/-- Witness for C1 at the concrete input `e0` (position (0,0), non-padding). -/
theorem embedding_mask_spec_witness :
    0 < e0.length ∧ 0 < (e0.getD 0 []).length ∧
    ((maskEntry (embedding_mask e0) 0 0 = 1 ↔ rowAbsSum e0 0 0 ≠ 0) ∧
      (maskEntry (embedding_mask e0) 0 0 = 0 ↔ rowAbsSum e0 0 0 = 0) ∧
      (maskEntry (embedding_mask e0) 0 0 = 0 ∨ maskEntry (embedding_mask e0) 0 0 = 1)) :=
  ⟨by with_unfolding_all decide, by with_unfolding_all decide,
    embedding_mask_spec e0 0 0 (by with_unfolding_all decide)
      (by with_unfolding_all decide)⟩

/-- C9: masking is idempotent — applying the mask extractor to the already
masked tensor `emb * embedding_mask emb` yields the same mask as
`embedding_mask emb`. -/
theorem embedding_mask_idem (emb : T3) :
    embedding_mask (t3mul emb (embedding_mask emb)) = embedding_mask emb := by
  induction emb with
  | nil => rfl
  | cons m embs ih =>
    show (mulMask m (m.map maskRow)).map maskRow :: _ = m.map maskRow :: _
    exact congrArg₂ _ (maskRow_mulMask m) ih

/-- C7: when the kernel-width list and the kernel-feature list have different
lengths, `conv_emb` fails with the configuration error of its `assert` and
the whole pipeline `chrawr_embedding` propagates that same error, producing
no tensor at all. -/
theorem kernel_feature_mismatch_fails (sigmoid act : ℚ → ℚ) (W : ChrawrWeights)
    (P : ChrawrParams) (timing : ℕ → ℕ → ℚ) (u1 u2 : ℕ → ℕ → ℕ → ℚ)
    (x mask emb : T3) (h : P.kernels.length ≠ P.features.length) :
    conv_emb act P.kernels P.features W.branchWs P.maxpool x mask
      = .error "Kernel and Features must have the same size" ∧
    chrawr_embedding sigmoid act W P timing u1 u2 emb
      = .error "Kernel and Features must have the same size" := by
  have hc : conv_emb act P.kernels P.features W.branchWs P.maxpool
      (chrawrPre W P.posEnc timing emb) (embedding_mask emb)
      = .error "Kernel and Features must have the same size" := by
    simp [conv_emb, h]
  refine ⟨by simp [conv_emb, h], ?_⟩
  unfold chrawr_embedding chrawrMid
  rw [hc]

/-- Witness for C7: 3 kernels versus 2 feature sizes. -/
theorem kernel_feature_mismatch_fails_witness :
    Pmis.kernels.length ≠ Pmis.features.length ∧
    conv_emb id Pmis.kernels Pmis.features W0.branchWs Pmis.maxpool [] []
      = .error "Kernel and Features must have the same size" ∧
    chrawr_embedding id id W0 Pmis tz uz uz []
      = .error "Kernel and Features must have the same size" :=
  ⟨by with_unfolding_all decide,
    (kernel_feature_mismatch_fails id id W0 Pmis tz uz uz [] [] []
      (by with_unfolding_all decide)).1,
    (kernel_feature_mismatch_fails id id W0 Pmis tz uz uz [] [] []
      (by with_unfolding_all decide)).2⟩

/-- C10: with zero highway layers the loop body never runs, the loop-carried
`output` is never assigned and `highway` returns no defined tensor; with at
least one layer it always returns a defined tensor. -/
theorem highway_zero_layers_undefined (sigmoid gAct : ℚ → ℚ) (x : Mat) :
    highway sigmoid gAct [] x = none ∧
    ∀ ws : List HighwayW, ws ≠ [] →
      ∃ out, highway sigmoid gAct ws x = some out := by
  refine ⟨rfl, fun ws hne => ?_⟩
  exact ⟨highwayRun sigmoid gAct ws x, highway_eq_run sigmoid gAct ws x hne⟩

/-- Witness for C10 at a concrete one-layer configuration. -/
theorem highway_zero_layers_undefined_witness :
    highway id id [] [] = none ∧
    ∃ out, highway id id [hw1] [] = some out :=
  ⟨(highway_zero_layers_undefined id id []).1,
    (highway_zero_layers_undefined id id []).2 [hw1] (List.cons_ne_nil _ _)⟩

/-- C8: with dropout rate 0 and the positional-encoding flag false,
`chrawr_embedding` is deterministic — two forward passes on identical input
and weights, differing only in the dropout layers' random draws (uniform
samples, hence nonnegative), produce identical outputs. -/
theorem chrawr_deterministic (sigmoid act : ℚ → ℚ) (W : ChrawrWeights)
    (P : ChrawrParams) (timing : ℕ → ℕ → ℚ) (u1 u2 u1' u2' : ℕ → ℕ → ℕ → ℚ)
    (emb : T3) (hrate : P.dropoutRate = 0) (hpos : P.posEnc = false)
    (h1 : ∀ b t c, 0 ≤ u1 b t c) (h1' : ∀ b t c, 0 ≤ u1' b t c) :
    chrawr_embedding sigmoid act W P timing u1 u2 emb
      = chrawr_embedding sigmoid act W P timing u1' u2' emb := by
  unfold chrawr_embedding
  cases hmid : chrawrMid act W P timing emb with
  | error e => rfl
  | ok mid =>
    have hkeep : 1 - P.dropoutRate = 1 := by rw [hrate]; norm_num
    rw [hkeep]
    dsimp only
    rw [dropout_keep_one u1 mid h1, dropout_keep_one u1' mid h1']

/-- Witness for C8: two concrete runs differing in both dropout draws. -/
theorem chrawr_deterministic_witness :
    chrawr_embedding id id W0 P0 tz uz uz e0
      = chrawr_embedding id id W0 P0 tz uh uh e0 :=
  chrawr_deterministic id id W0 P0 tz uz uz uh uh e0 rfl rfl
    (fun _ _ _ => le_refl 0) (fun _ _ _ => by norm_num [uh])

/-- C2 (amended): the pipeline stages run in the listed order, but the
restore-dimension 1x1 convolution consumes the masked highway output of
step 9, not the second dropout's output: the second dropout is computed into
a dead variable and the final returned tensor does not depend on the second
dropout's random draw at all. -/
theorem restore_ignores_second_dropout (sigmoid act : ℚ → ℚ) (W : ChrawrWeights)
    (P : ChrawrParams) (timing : ℕ → ℕ → ℚ) (u1 u2 u2' : ℕ → ℕ → ℕ → ℚ)
    (emb : T3) :
    (∀ mid, chrawrMid act W P timing emb = .ok mid → W.hwLayers ≠ [] →
      chrawr_embedding sigmoid act W P timing u1 u2 emb
        = .ok (t3mul
            (t3conv id 1 W.restoreF W.restoreBias
              (t3mul ((dropoutT3 (1 - P.dropoutRate) u1 mid).map
                  (highwayRun sigmoid act W.hwLayers))
                (embedding_mask mid)))
            (embedding_mask mid))) ∧
    chrawr_embedding sigmoid act W P timing u1 u2 emb
      = chrawr_embedding sigmoid act W P timing u1 u2' emb := by
  constructor
  · intro mid hmid hne
    unfold chrawr_embedding
    rw [hmid]
    dsimp only
    cases hwl : W.hwLayers with
    | nil => exact absurd hwl hne
    | cons w ws => rfl
  · unfold chrawr_embedding
    cases hmid : chrawrMid act W P timing emb with
    | error e => rfl
    | ok mid => dsimp only

/-- Counterexample to C2 as stated: at a concrete input and weight setting
(dropout rate 1/2, first draw kept, second draw dropped) the faithful
pipeline differs from the variant in which the restoring convolution consumes
the second dropout's output — so the restoring convolution does not consume
the second dropout's output. -/
theorem restore_consumes_second_dropout_refuted :
    chrawr_embedding id id W0 P1 tz uh uz e1
      ≠ chrawr_embedding_specC2 id id W0 P1 tz uh uz e1 := by
  have h1 : chrawr_embedding id id W0 P1 tz uh uz e1 = .ok [[[2]]] := by
    with_unfolding_all rfl
  have h2 : chrawr_embedding_specC2 id id W0 P1 tz uh uz e1 = .ok [[[0]]] := by
    with_unfolding_all rfl
  rw [h1, h2]
  intro h
  injection h with h3
  exact absurd h3 (by with_unfolding_all decide)

/-- Witness for the amended C2 at a concrete configuration. -/
theorem restore_ignores_second_dropout_witness :
    chrawrMid id W0 P1 tz e1 = .ok [[[1]]] ∧
    W0.hwLayers ≠ [] ∧
    chrawr_embedding id id W0 P1 tz uh uz e1
      = .ok (t3mul
          (t3conv id 1 W0.restoreF W0.restoreBias
            (t3mul ((dropoutT3 (1 - P1.dropoutRate) uh [[[1]]]).map
                (highwayRun id id W0.hwLayers))
              (embedding_mask [[[1]]])))
          (embedding_mask [[[1]]])) ∧
    chrawr_embedding id id W0 P1 tz uh uz e1
      = chrawr_embedding id id W0 P1 tz uh uh e1 :=
  ⟨by with_unfolding_all rfl, by simp [W0],
    (restore_ignores_second_dropout id id W0 P1 tz uh uz uh e1).1 [[[1]]]
      (by with_unfolding_all rfl) (by simp [W0]),
    (restore_ignores_second_dropout id id W0 P1 tz uh uz uh e1).2⟩

/-! Shape lemmas. -/

theorem mem_zipWith {α β γ : Type _} {f : α → β → γ} {l₁ : List α} {l₂ : List β}
    {c : γ} (h : c ∈ List.zipWith f l₁ l₂) :
    ∃ a ∈ l₁, ∃ b ∈ l₂, c = f a b := by
  induction l₁ generalizing l₂ with
  | nil => simp at h
  | cons a l ih =>
    cases l₂ with
    | nil => simp at h
    | cons b l₂ =>
      rw [List.zipWith_cons_cons] at h
      rcases List.mem_cons.mp h with h | h
      · exact ⟨a, List.mem_cons_self a _, b, List.mem_cons_self b _, h⟩
      · rcases ih h with ⟨a', ha, b', hb, rfl⟩
        exact ⟨a', List.mem_cons_of_mem _ ha, b', List.mem_cons_of_mem _ hb, rfl⟩

theorem conv1dSame_length (act : ℚ → ℚ) (k : ℕ) (F : List (List (List ℚ)))
    (bias : List ℚ) (m : Mat) : (conv1dSame act k F bias m).length = m.length := by
  simp only [conv1dSame, List.length_map, List.length_range]

theorem conv1dSame_rows (act : ℚ → ℚ) (k : ℕ) (F : List (List (List ℚ)))
    (bias : List ℚ) (m : Mat) (c : ℕ) (hF : F.length = c) (hb : bias.length = c) :
    ∀ r ∈ conv1dSame act k F bias m, r.length = c := by
  intro r hr
  unfold conv1dSame at hr
  rcases List.mem_map.mp hr with ⟨t, _, rfl⟩
  simp [List.length_zipWith, hF, hb]

theorem mulMask_length (m mask : Mat) :
    (mulMask m mask).length = min m.length mask.length := by
  simp [mulMask]

theorem mulMask_rows (m mask : Mat) (c : ℕ) (hm : ∀ r ∈ m, r.length = c) :
    ∀ r ∈ mulMask m mask, r.length = c := by
  intro r hr
  unfold mulMask at hr
  rcases mem_zipWith hr with ⟨row, hrow, mrow, _, rfl⟩
  simp [hm row hrow]

theorem maxpool1dSame_length (p : ℕ) (m : Mat) :
    (maxpool1dSame p m).length = (m.length + p - 1) / p := by
  simp [maxpool1dSame]

theorem poolWindow_subset (p pl : ℕ) (m : Mat) (j : ℕ) :
    ∀ r ∈ poolWindow p pl m j, r ∈ m := by
  intro r hr
  unfold poolWindow at hr
  rcases List.mem_filterMap.mp hr with ⟨i, _, hi⟩
  by_cases hcond : pl ≤ j * p + i ∧ j * p + i - pl < m.length
  · rw [if_pos hcond] at hi
    injection hi with hi'
    rw [← hi', List.getD_eq_getElem?_getD, List.getElem?_eq_getElem hcond.2]
    exact List.getElem_mem hcond.2
  · rw [if_neg hcond] at hi
    cases hi

theorem poolWindow_arith (L p j : ℕ) (hp : 0 < p) (hj : j < (L + p - 1) / p) :
    j * p < L ∧ ((L + p - 1) / p * p - L) / 2 < p := by
  have h1 : ((L + p - 1) / p) * p ≤ L + p - 1 := Nat.div_mul_le_self _ _
  have h2 : j + 1 ≤ (L + p - 1) / p := hj
  have h3 : (j + 1) * p ≤ ((L + p - 1) / p) * p := Nat.mul_le_mul_right p h2
  have h4 : 0 < (L + p - 1) / p := Nat.lt_of_le_of_lt (Nat.zero_le j) hj
  have h5 : 1 * p ≤ ((L + p - 1) / p) * p := Nat.mul_le_mul_right p h4
  rw [one_mul] at h5
  rw [Nat.add_mul, one_mul] at h3
  have hdiv : (((L + p - 1) / p) * p - L) / 2 ≤ ((L + p - 1) / p) * p - L :=
    Nat.div_le_self _ _
  generalize hA : ((L + p - 1) / p) * p = A at h1 h3 h5 hdiv ⊢
  generalize hB : (A - L) / 2 = B at hdiv ⊢
  generalize hC : j * p = C at h3 ⊢
  omega

theorem poolWindow_mem (p : ℕ) (m : Mat) (j : ℕ) (hp : 0 < p)
    (hj : j < (m.length + p - 1) / p) :
    m.getD (j * p) []
      ∈ poolWindow p (((m.length + p - 1) / p * p - m.length) / 2) m j := by
  obtain ⟨hjp, hpl⟩ := poolWindow_arith m.length p j hp hj
  unfold poolWindow
  apply List.mem_filterMap.mpr
  refine ⟨((m.length + p - 1) / p * p - m.length) / 2, List.mem_range.mpr hpl, ?_⟩
  rw [if_pos]
  · rw [Nat.add_sub_cancel]
  · exact ⟨Nat.le_add_left _ _, by rw [Nat.add_sub_cancel]; exact hjp⟩

theorem elemMax_length (rows : Mat) (c : ℕ) (hne : rows ≠ [])
    (hc : ∀ r ∈ rows, r.length = c) : (elemMax rows).length = c := by
  cases rows with
  | nil => exact absurd rfl hne
  | cons r rs =>
    unfold elemMax
    have aux : ∀ (xs : Mat) (a : List ℚ), a.length = c → (∀ r' ∈ xs, r'.length = c) →
        (xs.foldl (fun u v => List.zipWith max u v) a).length = c := by
      intro xs
      induction xs with
      | nil => intro a ha _; exact ha
      | cons x xs ih =>
        intro a ha hx
        rw [List.foldl_cons]
        refine ih _ ?_ fun r' hr' => hx r' (List.mem_cons_of_mem _ hr')
        rw [List.length_zipWith, ha, hx x (List.mem_cons_self x xs)]
        exact min_self c
    exact aux rs r (hc r (List.mem_cons_self r rs))
      fun r' hr' => hc r' (List.mem_cons_of_mem _ hr')

theorem maxpool1dSame_rows (p : ℕ) (m : Mat) (c : ℕ)
    (hm : ∀ r ∈ m, r.length = c) :
    ∀ r ∈ maxpool1dSame p m, r.length = c := by
  intro r hr
  simp only [maxpool1dSame] at hr
  rcases List.mem_map.mp hr with ⟨j, hj, rfl⟩
  have hj' := List.mem_range.mp hj
  have hp : 0 < p := by
    rcases Nat.eq_zero_or_pos p with hp0 | hp0
    · subst hp0
      rw [Nat.div_zero] at hj'
      exact absurd hj' (Nat.not_lt_zero j)
    · exact hp0
  refine elemMax_length _ c ?_ ?_
  · intro hnil
    have hmem := poolWindow_mem p m j hp hj'
    rw [hnil] at hmem
    exact absurd hmem (List.not_mem_nil _)
  · intro r' hr'
    exact hm r' (poolWindow_subset _ _ _ _ r' hr')

theorem ceil_div_nat (L p : ℕ) (hp : 0 < p) :
    (L + p - 1) / p = ⌈(L : ℚ) / (p : ℚ)⌉₊ := by
  have hp' : (0 : ℚ) < (p : ℚ) := by exact_mod_cast hp
  have hple : L ≤ (L + p - 1) / p * p := by
    have hdm := Nat.div_add_mod (L + p - 1) p
    rw [Nat.mul_comm] at hdm
    have hmod := Nat.mod_lt (L + p - 1) hp
    generalize hA : (L + p - 1) / p * p = A at hdm ⊢
    generalize hB : (L + p - 1) % p = B at hdm hmod
    omega
  refine le_antisymm ?_ (Nat.ceil_le.mpr ?_)
  · rcases Nat.eq_zero_or_pos ((L + p - 1) / p) with hn | hn1
    · rw [hn]; exact Nat.zero_le _
    · have key : ((L + p - 1) / p - 1) * p < L := by
        have hdm := Nat.div_add_mod (L + p - 1) p
        rw [Nat.mul_comm] at hdm
        have hmod := Nat.mod_lt (L + p - 1) hp
        have hpA : p ≤ (L + p - 1) / p * p := Nat.le_mul_of_pos_left p hn1
        have hsub : ((L + p - 1) / p - 1) * p = (L + p - 1) / p * p - p := by
          rw [Nat.sub_mul, one_mul]
        rw [hsub]
        generalize hA : (L + p - 1) / p * p = A at hdm hpA ⊢
        generalize hB : (L + p - 1) % p = B at hdm hmod
        omega
      have hlt : (L + p - 1) / p - 1 < ⌈(L : ℚ) / (p : ℚ)⌉₊ := by
        apply Nat.lt_ceil.mpr
        rw [lt_div_iff₀ hp']
        exact_mod_cast key
      omega
  · rw [div_le_iff₀ hp']
    exact_mod_cast hple

/-- C6: the time dimension of a branch's output after same-padded max-pooling
with window and stride `p ≥ 1` on an input of time length `L` is `⌈L / p⌉`. -/
theorem conv_branch_time_ceil (act : ℚ → ℚ) (k : ℕ) (w : BranchW) (p : ℕ)
    (m mask : Mat) (hp : 1 ≤ p) (hmask : mask.length = m.length) :
    (convBranchMat act k w p m mask).length = ⌈(m.length : ℚ) / (p : ℚ)⌉₊ := by
  unfold convBranchMat
  rw [maxpool1dSame_length, mulMask_length, conv1dSame_length, hmask, min_self]
  exact ceil_div_nat m.length p hp

/-- A 5-step single-channel input for the pooling-length witness. -/
def m5 : Mat := [[1], [2], [3], [4], [5]]

/-- An all-ones 5×1 mask. -/
def k5 : Mat := [[1], [1], [1], [1], [1]]

/-- Witness for C6: length 5, pooling 2, output length `⌈5/2⌉ = 3`. -/
theorem conv_branch_time_ceil_witness :
    1 ≤ 2 ∧ k5.length = m5.length ∧
    (convBranchMat id 1 bw1 2 m5 k5).length = ⌈(m5.length : ℚ) / (2 : ℚ)⌉₊ :=
  ⟨by decide, by decide,
    conv_branch_time_ceil id 1 bw1 2 m5 k5 (by decide) (by decide)⟩

theorem zip3_length {α β γ δ : Type _} (f : α → β → γ → δ) (as : List α)
    (bs : List β) (cs : List γ) :
    (zip3 f as bs cs).length = min as.length (min bs.length cs.length) := by
  induction as generalizing bs cs with
  | nil => simp [zip3]
  | cons a as ih =>
    cases bs with
    | nil => simp [zip3]
    | cons b bs =>
      cases cs with
      | nil => simp [zip3]
      | cons c cs =>
        simp only [zip3, List.length_cons, ih]
        omega

theorem mem_zip3 {α β γ δ : Type _} {f : α → β → γ → δ} {as : List α}
    {bs : List β} {cs : List γ} {d : δ} (h : d ∈ zip3 f as bs cs) :
    ∃ a ∈ as, ∃ b ∈ bs, ∃ c ∈ cs, d = f a b c := by
  induction as generalizing bs cs with
  | nil => simp [zip3] at h
  | cons a as ih =>
    cases bs with
    | nil => simp [zip3] at h
    | cons b bs =>
      cases cs with
      | nil => simp [zip3] at h
      | cons c cs =>
        simp only [zip3] at h
        rcases List.mem_cons.mp h with h | h
        · exact ⟨a, List.mem_cons_self a _, b, List.mem_cons_self b _,
            c, List.mem_cons_self c _, h⟩
        · rcases ih h with ⟨a', ha, b', hb, c', hc, rfl⟩
          exact ⟨a', List.mem_cons_of_mem _ ha, b', List.mem_cons_of_mem _ hb,
            c', List.mem_cons_of_mem _ hc, rfl⟩

theorem hwCombine_shape (t g x : Mat) (c : ℕ)
    (ht : t.length = x.length) (hg : g.length = x.length)
    (htr : ∀ r ∈ t, r.length = c) (hgr : ∀ r ∈ g, r.length = c)
    (hxr : ∀ r ∈ x, r.length = c) :
    (hwCombine t g x).length = x.length ∧ ∀ r ∈ hwCombine t g x, r.length = c := by
  constructor
  · rw [hwCombine, zip3_length, ht, hg]
    simp
  · intro r hr
    unfold hwCombine at hr
    rcases mem_zip3 hr with ⟨tr, htr', gr, hgr', xr, hxr', rfl⟩
    rw [zip3_length, htr tr htr', hgr gr hgr', hxr xr hxr']
    simp

theorem highwayStep_shape (sigmoid gAct : ℚ → ℚ) (w : HighwayW) (x : Mat) (c : ℕ)
    (hw : w.tF.length = c ∧ w.tBias.length = c ∧ w.gF.length = c ∧ w.gBias.length = c)
    (hx : ∀ r ∈ x, r.length = c) :
    (highwayStep sigmoid gAct w x).length = x.length ∧
    ∀ r ∈ highwayStep sigmoid gAct w x, r.length = c := by
  unfold highwayStep
  exact hwCombine_shape _ _ x c
    (conv1dSame_length sigmoid 1 w.tF w.tBias x)
    (conv1dSame_length gAct 1 w.gF w.gBias x)
    (conv1dSame_rows sigmoid 1 w.tF w.tBias x c hw.1 hw.2.1)
    (conv1dSame_rows gAct 1 w.gF w.gBias x c hw.2.2.1 hw.2.2.2)
    hx

theorem highwayRun_shape (sigmoid gAct : ℚ → ℚ) (ws : List HighwayW) (c : ℕ) :
    ∀ x : Mat,
      (∀ w ∈ ws, w.tF.length = c ∧ w.tBias.length = c ∧ w.gF.length = c ∧
        w.gBias.length = c) →
      (∀ r ∈ x, r.length = c) →
      (highwayRun sigmoid gAct ws x).length = x.length ∧
      ∀ r ∈ highwayRun sigmoid gAct ws x, r.length = c := by
  induction ws with
  | nil => exact fun x _ hx => ⟨rfl, hx⟩
  | cons w ws ih =>
    intro x hw hx
    have hstep := highwayStep_shape sigmoid gAct w x c
      (hw w (List.mem_cons_self _ _)) hx
    have hrun := ih (highwayStep sigmoid gAct w x)
      (fun w' hw' => hw w' (List.mem_cons_of_mem _ hw')) hstep.2
    constructor
    · show (highwayRun sigmoid gAct ws (highwayStep sigmoid gAct w x)).length
        = x.length
      rw [hrun.1, hstep.1]
    · show ∀ r ∈ highwayRun sigmoid gAct ws (highwayStep sigmoid gAct w x),
        r.length = c
      exact hrun.2

/-- C4: for any layer count `N ≥ 1` (a nonempty per-layer weight list),
`highway` returns the `N`-fold sequential composition of the layer step
`t * g + (1 - t) * input`, with `t` the sigmoid-activated linear projection
and `g` the configured nonlinearity of a separately-parameterized linear
projection of the layer input, and the stack output has the same shape
(time length and channel width `c`) as the input. -/
theorem highway_layers_spec (sigmoid gAct : ℚ → ℚ) (ws : List HighwayW)
    (x : Mat) (c : ℕ) (hne : ws ≠ [])
    (hw : ∀ w ∈ ws, w.tF.length = c ∧ w.tBias.length = c ∧ w.gF.length = c ∧
      w.gBias.length = c)
    (hx : ∀ r ∈ x, r.length = c) :
    highway sigmoid gAct ws x
      = some (ws.foldl
          (fun acc w =>
            hwCombine (conv1dSame sigmoid 1 w.tF w.tBias acc)
              (conv1dSame gAct 1 w.gF w.gBias acc) acc)
          x) ∧
    (highwayRun sigmoid gAct ws x).length = x.length ∧
    ∀ r ∈ highwayRun sigmoid gAct ws x, r.length = c := by
  have hshape := highwayRun_shape sigmoid gAct ws c x hw hx
  refine ⟨?_, hshape.1, hshape.2⟩
  rw [highway_eq_run sigmoid gAct ws x hne]
  rfl

/-- Witness for C4: one layer, 1×1 input, channel width 1. -/
theorem highway_layers_spec_witness :
    ([hw1] : List HighwayW) ≠ [] ∧
    (highway id id [hw1] [[1]]
      = some ([hw1].foldl
          (fun acc w =>
            hwCombine (conv1dSame id 1 w.tF w.tBias acc)
            (conv1dSame id 1 w.gF w.gBias acc) acc)
          [[1]]) ∧
      (highwayRun id id [hw1] [[1]]).length = ([[1]] : Mat).length ∧
      ∀ r ∈ highwayRun id id [hw1] [[1]], r.length = 1) :=
  ⟨List.cons_ne_nil _ _,
    highway_layers_spec id id [hw1] [[1]] 1 (List.cons_ne_nil _ _)
      (by
        intro w hw
        rcases List.mem_singleton.mp hw with rfl
        exact ⟨rfl, rfl, rfl, rfl⟩)
      (by
        intro r hr
        rcases List.mem_singleton.mp hr with rfl
        rfl)⟩

theorem convBranchT3_rows (act : ℚ → ℚ) (k : ℕ) (w : BranchW) (p : ℕ)
    (x mask : T3) (f : ℕ) (hF : w.F.length = f) (hb : w.bias.length = f) :
    ∀ mat ∈ convBranchT3 act k w p x mask, ∀ r ∈ mat, r.length = f := by
  intro mat hmat
  unfold convBranchT3 at hmat
  rcases mem_zipWith hmat with ⟨m, _, mk, _, rfl⟩
  unfold convBranchMat
  exact maxpool1dSame_rows p _ f
    (mulMask_rows _ mk f (conv1dSame_rows act k w.F w.bias m f hF hb))

theorem concatC_rows (a c : T3) (c1 c2 : ℕ)
    (ha : ∀ mat ∈ a, ∀ r ∈ mat, r.length = c1)
    (hc : ∀ mat ∈ c, ∀ r ∈ mat, r.length = c2) :
    ∀ mat ∈ concatC a c, ∀ r ∈ mat, r.length = c1 + c2 := by
  intro mat hmat r hr
  unfold concatC at hmat
  rcases mem_zipWith hmat with ⟨u, hu, v, hv, rfl⟩
  rcases mem_zipWith hr with ⟨r1, hr1, r2, hr2, rfl⟩
  rw [List.length_append, ha u hu r1 hr1, hc v hv r2 hr2]

theorem concatT3_fold_rows (xs : List T3) :
    ∀ (fs : List ℕ) (acc : T3) (c : ℕ),
      (∀ mat ∈ acc, ∀ r ∈ mat, r.length = c) →
      List.Forall₂ (fun (t : T3) (f : ℕ) => ∀ mat ∈ t, ∀ r ∈ mat, r.length = f) xs fs →
      ∀ mat ∈ xs.foldl concatC acc, ∀ r ∈ mat, r.length = c + fs.sum := by
  induction xs with
  | nil =>
    intro fs acc c hacc hf
    cases hf
    simpa using hacc
  | cons x xs ih =>
    intro fs acc c hacc hf
    cases hf with
    | cons hx hxs =>
      rw [List.foldl_cons, List.sum_cons, ← Nat.add_assoc]
      exact ih _ (concatC acc x) (c + _) (concatC_rows acc x c _ hacc hx) hxs

theorem concatT3_rows (layers : List T3) (fs : List ℕ)
    (h : List.Forall₂ (fun (t : T3) (f : ℕ) => ∀ mat ∈ t, ∀ r ∈ mat, r.length = f)
      layers fs) :
    ∀ mat ∈ concatT3 layers, ∀ r ∈ mat, r.length = fs.sum := by
  cases h with
  | nil => intro mat hmat; simp [concatT3] at hmat
  | cons hx hxs =>
    intro mat hmat r hr
    rw [List.sum_cons]
    exact concatT3_fold_rows _ _ _ _ hx hxs mat hmat r hr

theorem layers_forall₂ (act : ℚ → ℚ) (p : ℕ) (x mask : T3) :
    ∀ (kernels features : List ℕ) (ws : List BranchW),
      kernels.length = features.length → ws.length = kernels.length →
      List.Forall₂ (fun (f : ℕ) (w : BranchW) => w.F.length = f ∧ w.bias.length = f)
        features ws →
      List.Forall₂ (fun (t : T3) (f : ℕ) => ∀ mat ∈ t, ∀ r ∈ mat, r.length = f)
        (List.zipWith (fun k w => convBranchT3 act k w p x mask) kernels ws)
        features := by
  intro kernels
  induction kernels with
  | nil =>
    intro features ws h1 _ _
    have : features = [] := by
      cases features with
      | nil => rfl
      | cons f fs => simp at h1
    subst this
    simp
  | cons k ks ih =>
    intro features ws h1 h2 h3
    cases features with
    | nil => simp at h1
    | cons f fs =>
      cases ws with
      | nil => simp at h2
      | cons w ws =>
        cases h3 with
        | cons hw hws =>
          rw [List.zipWith_cons_cons]
          exact List.Forall₂.cons
            (convBranchT3_rows act k w p x mask f hw.1 hw.2)
            (ih fs ws (by simpa using h1) (by simpa using h2) hws)

/-- C5: with exactly one kernel branch, `conv_emb` skips concatenation and
returns that branch's output directly, whose channel count is the single
kernel's feature count; with more than one branch it concatenates along the
channel dimension and the output channel count is the sum of all feature
counts. -/
theorem conv_emb_channels (act : ℚ → ℚ) (kernels features : List ℕ)
    (ws : List BranchW) (p : ℕ) (x mask : T3)
    (hlen : kernels.length = features.length) (hws : ws.length = kernels.length)
    (hshape : List.Forall₂
      (fun (f : ℕ) (w : BranchW) => w.F.length = f ∧ w.bias.length = f)
      features ws) :
    (kernels.length = 1 →
      ∃ k w f, kernels = [k] ∧ ws = [w] ∧ features = [f] ∧
        conv_emb act kernels features ws p x mask
          = .ok (convBranchT3 act k w p x mask) ∧
        ∀ mat ∈ convBranchT3 act k w p x mask, ∀ r ∈ mat, r.length = f) ∧
    (1 < kernels.length →
      ∃ out, conv_emb act kernels features ws p x mask = .ok out ∧
        ∀ mat ∈ out, ∀ r ∈ mat, r.length = features.sum) := by
  constructor
  · intro h1
    obtain ⟨k, hk⟩ : ∃ k, kernels = [k] := by
      cases kernels with
      | nil => simp at h1
      | cons k ks =>
        cases ks with
        | nil => exact ⟨k, rfl⟩
        | cons k2 ks => simp at h1
    subst hk
    obtain ⟨w, hw⟩ : ∃ w, ws = [w] := by
      cases ws with
      | nil => simp at hws
      | cons w ws' =>
        cases ws' with
        | nil => exact ⟨w, rfl⟩
        | cons w2 ws' => simp at hws
    subst hw
    obtain ⟨f, hf⟩ : ∃ f, features = [f] := by
      cases features with
      | nil => simp at hlen
      | cons f fs =>
        cases fs with
        | nil => exact ⟨f, rfl⟩
        | cons f2 fs => simp at hlen
    subst hf
    refine ⟨k, w, f, rfl, rfl, rfl, ?_, ?_⟩
    · unfold conv_emb
      rw [if_pos hlen]
      rfl
    · cases hshape with
      | cons hfw _ => exact convBranchT3_rows act k w p x mask f hfw.1 hfw.2
  · intro h1
    refine ⟨concatT3 (List.zipWith (fun k w => convBranchT3 act k w p x mask)
      kernels ws), ?_, ?_⟩
    · unfold conv_emb
      rw [if_pos hlen, if_pos h1]
    · exact concatT3_rows _ features
        (layers_forall₂ act p x mask kernels features ws hlen hws hshape)

/-- A 1×2×1 all-ones mask tensor for the C5 witness. -/
def mask21 : T3 := [[[1], [1]]]

/-- Witness for C5 at two branches (kernel widths 1 and 2, feature counts 1
and 1). -/
theorem conv_emb_channels_witness :
    ([1, 2] : List ℕ).length = ([1, 1] : List ℕ).length ∧
    ([bw1, bw1] : List BranchW).length = ([1, 2] : List ℕ).length ∧
    (1 < ([1, 2] : List ℕ).length ∧
      ∃ out, conv_emb id [1, 2] [1, 1] [bw1, bw1] 1 e0 mask21 = .ok out ∧
        ∀ mat ∈ out, ∀ r ∈ mat, r.length = ([1, 1] : List ℕ).sum) :=
  ⟨rfl, rfl, by decide,
    (conv_emb_channels id [1, 2] [1, 1] [bw1, bw1] 1 e0 mask21 rfl rfl
      (List.Forall₂.cons ⟨rfl, rfl⟩ (List.Forall₂.cons ⟨rfl, rfl⟩
        List.Forall₂.nil))).2 (by decide)⟩

theorem mulMask_zero_row (m : Mat) :
    ∀ (mask : Mat) (t : ℕ), (mask.getD t []).headD 0 = 0 →
      ∀ v ∈ (mulMask m mask).getD t [], v = 0 := by
  induction m with
  | nil => intro mask t _ v hv; simp [mulMask] at hv
  | cons row m ih =>
    intro mask t h v hv
    cases mask with
    | nil => simp [mulMask] at hv
    | cons mr mask =>
      cases t with
      | zero =>
        rw [List.getD_cons_zero] at h
        have hv' : v ∈ row.map (· * mr.headD 0) := hv
        rcases List.mem_map.mp hv' with ⟨a, _, rfl⟩
        rw [h, mul_zero]
      | succ t =>
        rw [List.getD_cons_succ] at h
        exact ih mask t h v hv

theorem t3mul_zero_entry (x : T3) :
    ∀ (mask : T3) (b t : ℕ), maskEntry mask b t = 0 →
      ∀ v ∈ ((t3mul x mask).getD b []).getD t [], v = 0 := by
  induction x with
  | nil => intro mask b t _ v hv; simp [t3mul] at hv
  | cons m x ih =>
    intro mask b t h v hv
    cases mask with
    | nil => simp [t3mul] at hv
    | cons mm mask =>
      cases b with
      | zero => exact mulMask_zero_row m mm t h v hv
      | succ b => exact ih mask b t h v hv

/-- C3: at every (batch, pooled-time) position where the recomputed
post-pooling mask (`embedding_mask` of the `conv_emb` output) is 0, the
tensor returned by `chrawr_embedding` is all-zero. -/
theorem chrawr_output_masked (sigmoid act : ℚ → ℚ) (W : ChrawrWeights)
    (P : ChrawrParams) (timing : ℕ → ℕ → ℚ) (u1 u2 : ℕ → ℕ → ℕ → ℚ)
    (emb mid out : T3)
    (hmid : chrawrMid act W P timing emb = .ok mid)
    (hout : chrawr_embedding sigmoid act W P timing u1 u2 emb = .ok out)
    (b t : ℕ) (hzero : maskEntry (embedding_mask mid) b t = 0) :
    ∀ v ∈ (out.getD b []).getD t [], v = 0 := by
  unfold chrawr_embedding at hout
  rw [hmid] at hout
  dsimp only at hout
  cases hwl : W.hwLayers with
  | nil =>
    rw [hwl] at hout
    exact Except.noConfusion hout
  | cons w ws =>
    rw [hwl] at hout
    dsimp only at hout
    injection hout with hout'
    subst hout'
    exact t3mul_zero_entry _ _ b t hzero

/-- Witness for C3: input `e0` has a padding position at (0,1); the pipeline
output is zero there. -/
theorem chrawr_output_masked_witness :
    chrawrMid id W0 P0 tz e0 = .ok [[[1], [0]]] ∧
    chrawr_embedding id id W0 P0 tz uz uz e0 = .ok [[[1], [0]]] ∧
    maskEntry (embedding_mask [[[1], [0]]]) 0 1 = 0 ∧
    ∀ v ∈ ((([[[(1 : ℚ)], [0]]] : T3).getD 0 []).getD 1 []), v = 0 :=
  ⟨by with_unfolding_all rfl, by with_unfolding_all rfl,
    by with_unfolding_all decide,
    chrawr_output_masked id id W0 P0 tz uz uz e0 [[[1], [0]]] [[[1], [0]]]
      (by with_unfolding_all rfl) (by with_unfolding_all rfl) 0 1
      (by with_unfolding_all decide)⟩
